import Mathlib

/-!
# Verification of the `pokecache` expiring cache

Shallow embedding of the Go package `internal/pokecache` (files
`handlers.go` and the cache/constructor file defining `Cache`,
`cacheEntry` and `NewCache`).

Modelling choices:
* The Go `map[string]cacheEntry` is embedded as an association list
  `List (String × CacheEntry)`; a Go map never holds a key twice, so
  theorems that need it take a `Nodup` hypothesis on the key list.
* Time (`time.Time`, `time.Duration`) is embedded as `Nat`: `now` is the
  current clock reading, `time.Since(t) = now - t`, and the eviction
  interval is a `Nat`.  All entries are created at some past clock
  reading, so natural subtraction agrees with Go's duration arithmetic.
* The mutex `mu` only serializes access and has no sequential meaning;
  it is dropped.  `reapLoop` is the timer driving `reap`; a single tick
  is embedded as one call of `reap` at a clock reading `now`.
* Byte values (`[]byte`) are embedded as `List Nat` of byte values for
  the functional claims.  Go slices are references into a heap; for the
  aliasing claim there is a second embedding (`RefModel` below) where a
  slice is a pointer into an explicit heap of buffers, exactly tracking
  which buffer `Add` stores and `Get` returns.
-/

namespace Pokecache

/-- `cacheEntry` from the source: `data []byte`, `createdAt time.Time`. -/
structure CacheEntry where
  data : List Nat
  createdAt : Nat
  deriving Repr, DecidableEq

/-- `Cache` from the source: the field `cache map[string]cacheEntry`
(the mutex `mu` is dropped). -/
structure Cache where
  cache : List (String × CacheEntry)
  deriving Repr, DecidableEq

/-- Lookup in the embedded map: Go's `c.cache[key]` / `entry, ok := c.cache[key]`. -/
def lookupKey : List (String × CacheEntry) → String → Option CacheEntry
  | [], _ => none
  | (k, e) :: rest, key => if k = key then some e else lookupKey rest key

/-- `NewCache` from the source: creates an empty mapping (the background
`reapLoop` goroutine it spawns is the timer that fires `reap`). -/
def NewCache : Cache := ⟨[]⟩

/-- `Add` from `handlers.go`: if the key already exists return the error
`"key already exists"` and leave the map untouched, otherwise insert an
entry with `data = value` and `createdAt = now` (`time.Now()`) and
return success.  The Go method mutates the receiver and returns an
`error`; the embedding returns the updated cache together with the
result. -/
def Cache.add (c : Cache) (key : String) (value : List Nat) (now : Nat) :
    Cache × Except String Unit :=
  match lookupKey c.cache key with
  | some _ => (c, .error "key already exists")
  | none => (⟨(key, ⟨value, now⟩) :: c.cache⟩, .ok ())

/-- `Get` from `handlers.go`: `entry, ok := c.cache[key]`; on a miss
return `(nil, false)`, otherwise `(entry.data, true)`.  The Go `nil`
slice of the miss branch is embedded as `none`. -/
def Cache.get (c : Cache) (key : String) : Option (List Nat) × Bool :=
  match lookupKey c.cache key with
  | none => (none, false)
  | some entry => (some entry.data, true)

/-- `Get` in explicit state-passing form: the method body performs no
write to `c.cache`, so the receiver state it leaves behind is `c`
itself.  Used to state the frame claim about `Get`. -/
def Cache.getM (c : Cache) (key : String) :
    Cache × (Option (List Nat) × Bool) :=
  match lookupKey c.cache key with
  | none => (c, (none, false))
  | some entry => (c, (some entry.data, true))

/-- The staleness test of `reap`: `time.Since(entry.createdAt) > interval`. -/
def stale (now interval : Nat) (e : CacheEntry) : Bool :=
  decide (interval < now - e.createdAt)

/-- `reap` from `handlers.go`: one sweep at clock reading `now` deletes
every entry with `time.Since(entry.createdAt) > interval` from the map
and keeps the rest. -/
def Cache.reap (c : Cache) (now interval : Nat) : Cache :=
  ⟨c.cache.filter (fun p => !stale now interval p.2)⟩

/-- The invariant of the spec's data-model section: every entry present
in the mapping was created no later than the current clock reading. -/
def Inv (c : Cache) (now : Nat) : Prop :=
  ∀ k e, lookupKey c.cache k = some e → e.createdAt ≤ now

/-- A key absent from the key list looks up to `none`. -/
theorem lookupKey_eq_none_of_not_mem (l : List (String × CacheEntry)) (key : String)
    (h : key ∉ l.map Prod.fst) : lookupKey l key = none := by
  induction l with
  | nil => rfl
  | cons hd rest ih =>
    obtain ⟨k, e⟩ := hd
    simp only [List.map_cons, List.mem_cons, not_or] at h
    simp only [lookupKey, if_neg (fun hk : k = key => h.1 hk.symm)]
    exact ih h.2

/-- Filtering only shrinks the key list. -/
theorem keys_filter_subset (l : List (String × CacheEntry)) (p : String × CacheEntry → Bool)
    (key : String) (h : key ∈ (l.filter p).map Prod.fst) : key ∈ l.map Prod.fst := by
  simp only [List.mem_map, List.mem_filter] at h ⊢
  obtain ⟨a, ⟨ha, _⟩, rfl⟩ := h
  exact ⟨a, ha, rfl⟩

/-- Lookup after filtering by a predicate on the entry, for a map with
no duplicate keys (always true of the embedded Go map). -/
theorem lookupKey_filter (l : List (String × CacheEntry)) (p : CacheEntry → Bool)
    (key : String) (hn : (l.map Prod.fst).Nodup) :
    lookupKey (l.filter fun q => p q.2) key =
      (match lookupKey l key with
       | none => none
       | some e => if p e then some e else none) := by
  induction l with
  | nil => rfl
  | cons hd rest ih =>
    obtain ⟨k, e⟩ := hd
    simp only [List.map_cons, List.nodup_cons] at hn
    obtain ⟨hk, hrest⟩ := hn
    by_cases hkey : k = key
    · subst hkey
      by_cases hp : p e
      · simp [List.filter_cons, hp, lookupKey]
      · have hnone : lookupKey (rest.filter fun q => p q.2) k = none :=
          lookupKey_eq_none_of_not_mem _ _ (fun hmem => hk (keys_filter_subset rest _ k hmem))
        simp [List.filter_cons, hp, lookupKey, hnone]
    · by_cases hp : p e
      · simp [List.filter_cons, hp, lookupKey, hkey, ih hrest]
      · simp [List.filter_cons, hp, lookupKey, hkey, ih hrest]

end Pokecache

namespace Pokecache.RefModel

/-!
Second embedding of the same two functions (`Add`, `Get` of
`handlers.go`), keeping Go's reference semantics of `[]byte`: a slice
value is a header holding a pointer into a heap of byte buffers, an
assignment of a slice copies the header but not the buffer, and a write
through any header holding the same pointer mutates the one shared
buffer.  `Add` stores the very slice header it receives
(`data: value`), and `Get` returns the stored header
(`return entry.data`); neither copies the buffer.
-/

/-- A Go `[]byte` value: a slice header, reduced to the pointer of the
backing buffer it references. -/
structure ByteSlice where
  ptr : Nat
  deriving Repr, DecidableEq

/-- The heap of byte buffers; a `ByteSlice` with `ptr = i` references
the buffer at position `i`. -/
abbrev Heap := List (List Nat)

/-- Reading the bytes a slice references. -/
def readSlice (h : Heap) (s : ByteSlice) : List Nat :=
  h.getD s.ptr []

/-- A caller's element assignment `s[i] = v` through a slice: mutates
the shared backing buffer in the heap. -/
def writeByte (h : Heap) (s : ByteSlice) (i v : Nat) : Heap :=
  h.set s.ptr ((h.getD s.ptr []).set i v)

/-- `cacheEntry` with its `data []byte` field kept as a slice header. -/
structure RCacheEntry where
  data : ByteSlice
  createdAt : Nat
  deriving Repr, DecidableEq

/-- `Cache` over reference-valued entries. -/
structure RCache where
  cache : List (String × RCacheEntry)
  deriving Repr, DecidableEq

/-- Map lookup, as in the value model. -/
def lookupR : List (String × RCacheEntry) → String → Option RCacheEntry
  | [], _ => none
  | (k, e) :: rest, key => if k = key then some e else lookupR rest key

/-- `Add` from `handlers.go` under reference semantics: the entry's
`data` field is assigned the received slice header itself. -/
def RCache.add (c : RCache) (key : String) (value : ByteSlice) (now : Nat) :
    RCache × Except String Unit :=
  match lookupR c.cache key with
  | some _ => (c, .error "key already exists")
  | none => (⟨(key, ⟨value, now⟩) :: c.cache⟩, .ok ())

/-- `Get` from `handlers.go` under reference semantics: the hit branch
is `return entry.data, true`, so the returned value is the stored slice
header, with no copy of the backing buffer. -/
def RCache.get (c : RCache) (key : String) : Option ByteSlice × Bool :=
  match lookupR c.cache key with
  | none => (none, false)
  | some entry => (some entry.data, true)

end Pokecache.RefModel

namespace Pokecache

/-- C1: for every key `k` and byte value `v`, on a cache whose mapping
does not contain `k`, `Add(k, v)` returns success and an immediately
subsequent `Get(k)` returns `v` unchanged: present, with exactly the
bytes passed to `Add`. -/
theorem add_then_get (c : Cache) (key : String) (value : List Nat) (now : Nat)
    (h : lookupKey c.cache key = none) :
    (c.add key value now).2 = .ok () ∧
    (c.add key value now).1.get key = (some value, true) := by
  simp [Cache.add, h, Cache.get, lookupKey]

/-- Witness for `add_then_get`: adding `[7]` under `"a"` to the empty
cache succeeds and `Get "a"` returns `[7]`. -/
theorem add_then_get_witness :
    (NewCache.add "a" [7] 3).2 = .ok () ∧
    (NewCache.add "a" [7] 3).1.get "a" = (some [7], true) :=
  add_then_get NewCache "a" [7] 3 rfl

/-- C2: for every key `k` already present with entry `e` and every
value `v2`, `Add(k, v2)` returns the `AlreadyExists` error and leaves
the cache unchanged (the returned state is the original cache, so the
entry's data and `createdAt` are untouched), and `Get(k)` still returns
the originally stored bytes `e.data`. -/
theorem add_existing_no_overwrite (c : Cache) (key : String) (v2 : List Nat)
    (now : Nat) (e : CacheEntry) (h : lookupKey c.cache key = some e) :
    c.add key v2 now = (c, .error "key already exists") ∧
    c.get key = (some e.data, true) := by
  simp [Cache.add, h, Cache.get]

/-- Witness for `add_existing_no_overwrite`: after `Add("k", [1])`, a
second `Add("k", [2])` with `[1] ≠ [2]` errors and `Get "k"` still
returns `[1]`. -/
theorem add_existing_no_overwrite_witness :
    (NewCache.add "k" [1] 0).1.add "k" [2] 5 =
      ((NewCache.add "k" [1] 0).1, .error "key already exists") ∧
    (NewCache.add "k" [1] 0).1.get "k" = (some [1], true) :=
  add_existing_no_overwrite (NewCache.add "k" [1] 0).1 "k" [2] 5 ⟨[1], 0⟩ rfl

/-- C3: one execution of the sweep at clock reading `now` removes from
the mapping exactly the entries whose age `now - createdAt` exceeds the
interval; every other entry is still found with data and `createdAt`
unchanged, and no key changes its binding otherwise. -/
theorem reap_removes_exactly_stale (c : Cache) (now interval : Nat) (key : String)
    (hn : (c.cache.map Prod.fst).Nodup) :
    lookupKey (c.reap now interval).cache key =
      (match lookupKey c.cache key with
       | none => none
       | some e => if interval < now - e.createdAt then none else some e) := by
  have h := lookupKey_filter c.cache (fun e => !stale now interval e) key hn
  rw [show (c.reap now interval).cache = c.cache.filter fun q => !stale now interval q.2 from rfl]
  rw [h]
  cases hc : lookupKey c.cache key with
  | none => rfl
  | some e =>
    by_cases hlt : interval < now - e.createdAt <;> simp [stale, hlt]

/-- Witness for `reap_removes_exactly_stale`: with `now = 7` and
`interval = 3`, the entry created at `0` (age `7 > 3`) is removed and
the entry created at `5` (age `2 ≤ 3`) is kept unchanged. -/
theorem reap_removes_exactly_stale_witness :
    lookupKey ((Cache.mk [("a", ⟨[1], 0⟩), ("b", ⟨[2], 5⟩)]).reap 7 3).cache "a" = none ∧
    lookupKey ((Cache.mk [("a", ⟨[1], 0⟩), ("b", ⟨[2], 5⟩)]).reap 7 3).cache "b" = some ⟨[2], 5⟩ := by
  constructor
  · rw [reap_removes_exactly_stale (Cache.mk [("a", ⟨[1], 0⟩), ("b", ⟨[2], 5⟩)]) 7 3 "a" (by decide)]
    decide
  · rw [reap_removes_exactly_stale (Cache.mk [("a", ⟨[1], 0⟩), ("b", ⟨[2], 5⟩)]) 7 3 "b" (by decide)]
    decide

/-- C4: `Get` does not mutate the cache: the receiver state after the
method body is the original cache (same keys, every entry's data and
`createdAt` unchanged), while the returned pair agrees with `get`. -/
theorem get_no_mutation (c : Cache) (key : String) :
    (c.getM key).1 = c ∧ (c.getM key).2 = c.get key := by
  unfold Cache.getM Cache.get
  cases lookupKey c.cache key <;> simp

/-- C5: for every key absent from the mapping, `Get` returns the miss
result `(nil, false)`; absence is a normal outcome and `Get`'s result
type has no error branch. -/
theorem get_missing_absent (c : Cache) (key : String)
    (h : lookupKey c.cache key = none) : c.get key = (none, false) := by
  simp [Cache.get, h]

/-- Witness for `get_missing_absent`: a key never added to the empty
cache reads back as absent. -/
theorem get_missing_absent_witness : NewCache.get "zzz" = (none, false) :=
  get_missing_absent NewCache "zzz" rfl

/-- C6: the empty string is a legal key and the empty byte sequence a
legal value: on a cache not containing `""`, `Add("", [])` succeeds and
`Get("")` returns the empty byte sequence marked found, not absent. -/
theorem add_empty_key_and_value (c : Cache) (now : Nat)
    (h : lookupKey c.cache "" = none) :
    (c.add "" [] now).2 = .ok () ∧
    (c.add "" [] now).1.get "" = (some [], true) := by
  simp [Cache.add, h, Cache.get, lookupKey]

/-- Witness for `add_empty_key_and_value` on the empty cache. -/
theorem add_empty_key_and_value_witness :
    (NewCache.add "" [] 0).2 = .ok () ∧
    (NewCache.add "" [] 0).1.get "" = (some [], true) :=
  add_empty_key_and_value NewCache 0 rfl

/-- C8: in every reachable cache state every present key maps to an
entry with `createdAt ≤` current time: the invariant holds of the empty
cache built by `NewCache`, is preserved by `Add` (which stamps the
current time), by `Get` (which leaves the state unchanged), by one
sweep (which only deletes), and by the clock advancing. -/
theorem inv_reachable (c : Cache) (now : Nat) (h : Inv c now)
    (hn : (c.cache.map Prod.fst).Nodup) :
    (∀ m, Inv NewCache m) ∧
    (∀ key value, Inv (c.add key value now).1 now) ∧
    (∀ key, Inv ((c.getM key).1) now) ∧
    (∀ interval, Inv (c.reap now interval) now) ∧
    (∀ m, now ≤ m → Inv c m) := by
  refine ⟨?_, ?_, ?_, ?_, ?_⟩
  · intro m k e hk
    simp [NewCache, lookupKey] at hk
  · intro key value k e hk
    cases hadd : lookupKey c.cache key with
    | some e0 =>
      simp [Cache.add, hadd] at hk
      exact h k e hk
    | none =>
      simp [Cache.add, hadd, lookupKey] at hk
      split at hk
      · cases hk
        exact Nat.le_refl now
      · exact h k e hk
  · intro key k e hk
    have hfst : (c.getM key).1 = c := by
      unfold Cache.getM
      cases lookupKey c.cache key <;> rfl
    rw [hfst] at hk
    exact h k e hk
  · intro interval k e hk
    have hchar := lookupKey_filter c.cache (fun e => !stale now interval e) k hn
    rw [show (c.reap now interval).cache = c.cache.filter fun q => !stale now interval q.2 from rfl,
      hchar] at hk
    cases hc : lookupKey c.cache k with
    | none => rw [hc] at hk; simp at hk
    | some e0 =>
      rw [hc] at hk
      by_cases hs : stale now interval e0
      · simp [hs] at hk
      · simp [hs] at hk
        exact hk ▸ h k e0 hc
  · intro m hm k e hk
    exact Nat.le_trans (h k e hk) hm

/-- Witness for `inv_reachable`: the invariant instance for `Add` on
the empty cache at time `4`. -/
theorem inv_reachable_witness : Inv ((NewCache.add "a" [1] 4).1) 4 := by
  have h0 : Inv NewCache 4 := by
    intro k e hk
    simp [NewCache, lookupKey] at hk
  exact ((inv_reachable NewCache 4 h0 (by simp [NewCache])).2.1) "a" [1]

/-- C9: the staleness test of the sweep is strict: an entry whose age
at sweep time is exactly the interval is not removed and is still found
unchanged; only strictly older entries are deleted. -/
theorem reap_keeps_boundary_entry (c : Cache) (now interval : Nat) (key : String)
    (e : CacheEntry) (hn : (c.cache.map Prod.fst).Nodup)
    (h : lookupKey c.cache key = some e)
    (hage : now - e.createdAt = interval) :
    lookupKey (c.reap now interval).cache key = some e := by
  have hchar := lookupKey_filter c.cache (fun e => !stale now interval e) key hn
  rw [show (c.reap now interval).cache = c.cache.filter fun q => !stale now interval q.2 from rfl,
    hchar, h]
  simp [stale, hage]

/-- Witness for `reap_keeps_boundary_entry`: with `now = 5` and
`interval = 3`, the entry created at `2` has age exactly `3` and
survives the sweep. -/
theorem reap_keeps_boundary_entry_witness :
    lookupKey ((Cache.mk [("a", ⟨[1], 2⟩)]).reap 5 3).cache "a" = some ⟨[1], 2⟩ :=
  reap_keeps_boundary_entry (Cache.mk [("a", ⟨[1], 2⟩)]) 5 3 "a" ⟨[1], 2⟩
    (by decide) rfl rfl

/-- Filtering a list twice by the same predicate equals filtering once. -/
theorem filter_idem {α : Type} (l : List α) (p : α → Bool) :
    (l.filter p).filter p = l.filter p := by
  induction l with
  | nil => rfl
  | cons a rest ih =>
    by_cases hp : p a <;> simp [List.filter_cons, hp, ih]

/-- C10: the sweep is idempotent: running it twice at the same clock
reading yields the same mapping as running it once; the second run
removes nothing. -/
theorem reap_idempotent (c : Cache) (now interval : Nat) :
    (c.reap now interval).reap now interval = c.reap now interval := by
  show Cache.mk ((c.cache.filter fun q => !stale now interval q.2).filter
      fun q => !stale now interval q.2) =
    Cache.mk (c.cache.filter fun q => !stale now interval q.2)
  rw [filter_idem]

end Pokecache

namespace Pokecache.RefModel

/-- C7 counterexample: with a heap whose buffer `0` holds `[1, 2, 3]`,
after `Add("k", s)` with slice `s = ⟨0⟩` the mapping stores the header
`s` itself, and `Get("k")` returns that same header; a caller write
`s[0] = 99` through the value `Get` returned changes the bytes the
cache's stored entry references from `[1, 2, 3]` to `[99, 2, 3]`, so
the caller CAN mutate the cache's internal stored bytes through the
value `Get` returns — `Get` does not return the data by value. -/
theorem get_alias_counterexample :
    ((RCache.mk []).add "k" ⟨0⟩ 0).1.get "k" = (some ⟨0⟩, true) ∧
    lookupR (((RCache.mk []).add "k" ⟨0⟩ 0).1).cache "k" = some ⟨⟨0⟩, 0⟩ ∧
    readSlice [[1, 2, 3]] ⟨0⟩ = [1, 2, 3] ∧
    readSlice (writeByte [[1, 2, 3]] ⟨0⟩ 0 99) ⟨0⟩ = [99, 2, 3] :=
  ⟨rfl, rfl, rfl, rfl⟩

/-- C7 amended: for every present key, `Get` returns the stored slice
header itself — an alias of the entry's internal `data`, not a copy —
so the caller shares the backing bytes with the cache. -/
theorem get_returns_stored_alias (c : RCache) (key : String)
    (e : RCacheEntry) (h : lookupR c.cache key = some e) :
    c.get key = (some e.data, true) := by
  simp [RCache.get, h]

/-- Witness for `get_returns_stored_alias` on a one-entry cache. -/
theorem get_returns_stored_alias_witness :
    (RCache.mk [("k", ⟨⟨2⟩, 1⟩)]).get "k" = (some ⟨2⟩, true) :=
  get_returns_stored_alias (RCache.mk [("k", ⟨⟨2⟩, 1⟩)]) "k" ⟨⟨2⟩, 1⟩ rfl

end Pokecache.RefModel
